import Mathlib

/-!
Verification of the viseme pipeline of the EmotiVoice repository.

The embedding below follows the TypeScript source:
* `ElevenLabsAligner.convertAlignmentToVisemes` (grouping variant),
  `groupCharactersIntoPhonemes`, `getDominantViseme`, `smoothVisemeSequence`
  and `charToViseme` with the `|| 1` fallback;
* the second `ElevenLabsAligner.charToViseme` variant with the `|| 0` fallback;
* `ForcedAlignmentProcessor.phonemeToViseme`;
* `PhonemeConverter.generateVisemeTimeline`, `convertWordsToVisemes`,
  `wordToPhonemes`;
* the conversation hook's `onMessage` / `stopConversation` /
  `clearAllVisemeTimeouts`, embedded as explicit state transitions.

Times are modelled as integers of milliseconds for the aligner (the service
delivers integral `charStartTimesMs` / `charDurationsMs`), and as rationals
for `PhonemeConverter`, whose arithmetic divides durations.
-/

/-- Association-list lookup modelling a JavaScript object keyed by strings.
The first binding of a key wins, matching the literal object notation used in
the source (all its keys are distinct anyway). -/
def tblLookup (s : String) : List (String × Nat) → Option Nat
  | [] => none
  | (k, v) :: t => if s = k then some v else tblLookup s t

/-- JavaScript `x || d` on the result of an object lookup: `undefined` and the
number `0` are falsy, every other number is returned unchanged. -/
def jsOrNat (o : Option Nat) (d : Nat) : Nat :=
  match o with
  | none => d
  | some v => if v = 0 then d else v

/-- ASCII lowercasing, modelling `String.prototype.toLowerCase` on the ASCII
texts this pipeline handles. -/
def strToLower (s : String) : String :=
  ⟨s.data.map Char.toLower⟩

namespace AlignerGrouping

/-- One entry of the `chars` / `charStartTimesMs` / `charDurationsMs` parallel
arrays of an `ElevenLabsAlignment`, i.e. a `CharacterTiming`.  Each entry of
`chars` is a single-character string. -/
structure CharTiming where
  char : String
  startMs : Int
  durationMs : Int
  deriving DecidableEq, Repr

/-- A phoneme-like group produced by `groupCharactersIntoPhonemes`. -/
structure PhonemeGroup where
  chars : List String
  startTime : Int
  endTime : Int
  deriving DecidableEq, Repr

/-- A `VisemeTimestamp` of the aligner.  The source names the last two fields
`end` and `char`; `end` is a Lean keyword, so the field is called `endMs`. -/
structure VisemeTimestamp where
  viseme : Nat
  start : Int
  endMs : Int
  char : String
  deriving DecidableEq, Repr

/-- The `charToVisemeMap` literal of the grouping `charToViseme`
(`0=Neutral, 1-9` mouth shapes; digraph keys are unreachable for the
single-character strings the callers pass, but are kept for fidelity). -/
def charToVisemeMap : List (String × Nat) :=
  [("a", 1), ("e", 2), ("i", 3), ("o", 4), ("u", 5), ("y", 3),
   ("f", 6), ("v", 6), ("b", 7), ("p", 7), ("m", 7), ("w", 5),
   ("t", 8), ("d", 8), ("n", 8), ("s", 8), ("z", 8), ("th", 8),
   ("c", 9), ("ch", 9), ("sh", 9), ("j", 9), ("g", 9), ("k", 9),
   ("l", 2), ("r", 2), ("h", 1), ("x", 8), ("q", 9),
   (" ", 0), (".", 0), (",", 0), ("!", 0), ("?", 0), (":", 0), (";", 0),
   ("\n", 0), ("\t", 0),
   ("0", 4), ("1", 1), ("2", 2), ("3", 3), ("4", 1), ("5", 2),
   ("6", 3), ("7", 2), ("8", 4), ("9", 4)]

/-- The grouping `charToViseme`: `charToVisemeMap[char] || 1`, so a missing key
and a key whose table value is the (falsy) number `0` both yield `1`. -/
def charToViseme (char : String) : Nat :=
  jsOrNat (tblLookup char charToVisemeMap) 1

/-- The whitespace-or-punctuation test of `groupCharactersIntoPhonemes`:
`char === ' ' || char === '\n' || char === '\t' || /[.,!?;:]/.test(char)`.
The regex tests containment, which for the single-character strings at hand is
membership in the class. -/
def isWhitespaceOrPunct (s : String) : Bool :=
  s = " " || s = "\n" || s = "\t" ||
    s.data.any (fun c => c ∈ ['.', ',', '!', '?', ';', ':'])

/-- The vowel test `/[aeiouAEIOU]/.test(char)` (regex containment). -/
def isVowelStr (s : String) : Bool :=
  s.data.any (fun c => c ∈ ['a', 'e', 'i', 'o', 'u', 'A', 'E', 'I', 'O', 'U'])

/-- The `shouldEndGroup` condition, evaluated after the current character has
been pushed: `currentGroup.length >= 2 && ((isVowel && nextChar && !nextIsVowel)
|| currentGroup.length >= 3 || (nextChar === '' || nextChar === ' '))`. -/
def shouldEndGroup (cur2 : List String) (ch nextChar : String) : Bool :=
  2 ≤ cur2.length &&
    ((isVowelStr ch && nextChar ≠ "" && !isVowelStr nextChar) ||
      3 ≤ cur2.length || (nextChar = "" || nextChar = " "))

/-- The loop of `groupCharactersIntoPhonemes`, with the loop state
`currentGroup` / `groupStartTime` / `groupEndTime` passed explicitly.  The two
time variables keep their (possibly stale) values across group pushes exactly
as the mutable variables do in the source. -/
def groupGo : List CharTiming → List String → Int → Int → List PhonemeGroup
  | [], cur, gs, ge =>
    if cur = [] then [] else [⟨cur, gs, ge⟩]
  | e :: rest, cur, gs, ge =>
    if isWhitespaceOrPunct e.char then
      if cur = [] then groupGo rest [] gs ge
      else ⟨cur, gs, ge⟩ :: groupGo rest [] gs ge
    else
      let endTime := e.startMs + e.durationMs
      let gs2 := if cur = [] then e.startMs else gs
      let cur2 := cur ++ [e.char]
      let nextChar := ((rest.head?.map CharTiming.char).getD "")
      if shouldEndGroup cur2 e.char nextChar then
        ⟨cur2, gs2, endTime⟩ :: groupGo rest [] gs2 endTime
      else
        groupGo rest cur2 gs2 endTime

/-- `groupCharactersIntoPhonemes`: both time variables start at `0`. -/
def groupCharactersIntoPhonemes (al : List CharTiming) : List PhonemeGroup :=
  groupGo al [] 0 0

/-- Occurrence count of a viseme code among a group's characters, i.e. the
value `visemeCounts[viseme]` built by `getDominantViseme` (with `0` for keys
that were never inserted). -/
def visemeCounts (chars : List String) (v : Nat) : Nat :=
  (chars.map (fun c => charToViseme (strToLower c))).count v

/-- The selection loop of `getDominantViseme` over the entries of
`visemeCounts`; the accumulator is `(dominantViseme, maxCount)`. -/
def domFold (counts : Nat → Nat) : List Nat → Nat × Nat → Nat × Nat
  | [], acc => acc
  | v :: keys, (d, m) =>
    domFold counts keys (if v ≠ 0 ∧ m < counts v then (v, counts v) else (d, m))

/-- `getDominantViseme`.  `Object.entries` on an object whose keys are the
canonical numeral strings `"0"`‥`"9"` enumerates them in ascending numeric
order, so the loop runs over the present codes in ascending order; a code that
is absent from the object has count `0` and can never pass the strict
`count > maxCount` test starting from `maxCount = 0`, so iterating over all of
`0`‥`9` (every value `charToViseme` can produce) is the same loop. -/
def getDominantViseme (chars : List String) : Nat :=
  (domFold (visemeCounts chars) (List.range 10) (0, 0)).1

/-- The `100` ms `minDuration` of `smoothVisemeSequence`. -/
def minDuration : Int := 100

/-- Merging the current viseme event into the previous kept one:
`previous.end = current.end; previous.char += current.char`. -/
def mergeInto (prev cur : VisemeTimestamp) : VisemeTimestamp :=
  { prev with endMs := cur.endMs, char := prev.char ++ cur.char }

/-- The loop of `smoothVisemeSequence`; the accumulator holds the `smoothed`
array in reverse so that its head is the most recently kept event. -/
def smoothGo : List VisemeTimestamp → List VisemeTimestamp → List VisemeTimestamp
  | acc, [] => acc.reverse
  | acc, cur :: rest =>
    match acc with
    | [] => smoothGo [cur] rest
    | prev :: accTail =>
      if cur.endMs - cur.start < minDuration then
        smoothGo (mergeInto prev cur :: accTail) rest
      else if prev.viseme = cur.viseme then
        smoothGo (mergeInto prev cur :: accTail) rest
      else
        smoothGo (cur :: prev :: accTail) rest

/-- `smoothVisemeSequence`, including its `visemes.length <= 1` early return. -/
def smoothVisemeSequence (visemes : List VisemeTimestamp) : List VisemeTimestamp :=
  if visemes.length ≤ 1 then visemes else smoothGo [] visemes

/-- The grouping `convertAlignmentToVisemes`: group the characters, give each
group its dominant viseme and the group's time span (`char` is the joined
group text), then smooth. -/
def convertAlignmentToVisemes (al : List CharTiming) : List VisemeTimestamp :=
  smoothVisemeSequence <|
    (groupCharactersIntoPhonemes al).map fun g =>
      { viseme := getDominantViseme g.chars
        start := g.startTime
        endMs := g.endTime
        char := String.join g.chars }

end AlignerGrouping

namespace AlignerSimple

/-- The `charToVisemeMap` literal of the non-grouping `charToViseme`
(`0=Neutral, 1=F, 2=M, 3=O, 4=U, 5=E, 6=AI, 7=CH, 8=S, 9=L`). -/
def charToVisemeMap : List (String × Nat) :=
  [("a", 6), ("e", 5), ("i", 6), ("o", 3), ("u", 4), ("y", 6),
   ("f", 1), ("v", 1), ("b", 2), ("p", 2), ("m", 2), ("w", 4),
   ("t", 8), ("d", 8), ("n", 8), ("s", 8), ("z", 8), ("th", 8),
   ("c", 7), ("ch", 7), ("sh", 7), ("j", 7),
   ("l", 9), ("r", 9), ("k", 3), ("g", 3), ("q", 3),
   ("h", 5), ("x", 8),
   (".", 0), (",", 0), ("!", 0), ("?", 0), (":", 0), (";", 0),
   ("0", 3), ("1", 6), ("2", 8), ("3", 3), ("4", 1), ("5", 1),
   ("6", 8), ("7", 8), ("8", 5), ("9", 6)]

/-- The non-grouping `charToViseme`: `charToVisemeMap[char] || 0`, defaulting
to neutral for any key that is absent (whitespace among them). -/
def charToViseme (char : String) : Nat :=
  jsOrNat (tblLookup char charToVisemeMap) 0

end AlignerSimple

namespace ForcedAlignment

/-- The `phonemeToVisemeMap` literal of
`ForcedAlignmentProcessor.phonemeToViseme`. -/
def phonemeToVisemeMap : List (String × Nat) :=
  [("sil", 0), ("sp", 0), ("", 0),
   ("f", 1), ("v", 1),
   ("b", 2), ("p", 2), ("m", 2),
   ("ao", 3), ("ow", 3), ("o", 3),
   ("uw", 4), ("uh", 4), ("u", 4),
   ("eh", 5), ("ey", 5), ("e", 5),
   ("ae", 6), ("ay", 6), ("aa", 6), ("a", 6), ("ah", 6),
   ("ch", 7), ("jh", 7), ("sh", 7), ("zh", 7),
   ("s", 8), ("z", 8), ("th", 8), ("dh", 8),
   ("l", 9), ("r", 9), ("er", 9),
   ("t", 8), ("d", 8), ("n", 8), ("k", 3), ("g", 3), ("ng", 3),
   ("w", 4), ("y", 6), ("h", 5), ("ih", 5), ("iy", 5)]

/-- `ForcedAlignmentProcessor.phonemeToViseme`:
`phonemeToVisemeMap[phoneme] || 0`. -/
def phonemeToViseme (phoneme : String) : Nat :=
  jsOrNat (tblLookup phoneme phonemeToVisemeMap) 0

end ForcedAlignment

namespace PhonemeConverter

/-- A `VisemeEvent` of `PhonemeConverter` (source field `end` is renamed to
`endMs`).  Times are rationals because the converter divides durations. -/
structure VisemeEvent where
  viseme : Nat
  start : Rat
  endMs : Rat
  deriving DecidableEq, Repr

/-- A `WordTiming` (source field `end` renamed to `endMs`). -/
structure WordTiming where
  word : String
  start : Rat
  endMs : Rat
  deriving DecidableEq, Repr

/-- The `PHONEME_TO_VISEME` table of `PhonemeConverter`. -/
def PHONEME_TO_VISEME : List (String × Nat) :=
  [("sil", 0), ("sp", 0), ("", 0),
   ("a", 1), ("aa", 1), ("ae", 1), ("ah", 1), ("ao", 1), ("aw", 1), ("ay", 1),
   ("e", 2), ("eh", 2), ("er", 2), ("ey", 2),
   ("i", 3), ("ih", 3), ("iy", 3),
   ("o", 4), ("ow", 4), ("oy", 4),
   ("u", 5), ("uh", 5), ("uw", 5),
   ("b", 6), ("p", 6), ("m", 6),
   ("f", 7), ("v", 7),
   ("th", 8), ("dh", 8),
   ("t", 9), ("d", 9), ("n", 9), ("l", 9),
   ("k", 10), ("g", 10), ("ng", 10),
   ("ch", 11), ("jh", 11), ("sh", 11), ("zh", 11),
   ("r", 12),
   ("s", 13), ("z", 13),
   ("w", 14), ("y", 14),
   ("h", 15)]

/-- `PhonemeConverter.phonemeToViseme`:
`PHONEME_TO_VISEME[phoneme.toLowerCase()] || 0`. -/
def phonemeToViseme (phoneme : String) : Nat :=
  jsOrNat (tblLookup (strToLower phoneme) PHONEME_TO_VISEME) 0

/-- A lowercase ASCII letter, the class kept by
`word.toLowerCase().replace(/[^a-z]/g, '')`. -/
def isLowerAlpha (c : Char) : Bool :=
  'a' ≤ c && c ≤ 'z'

/-- The `cleanWord` of `wordToPhonemes`, as a character list. -/
def cleanLetters (word : String) : List Char :=
  (strToLower word).toList.filter isLowerAlpha

/-- The per-character phoneme emission of the `wordToPhonemes` loop for a
character that did not start a digraph: the vowel switch, the consonant switch
(with `x` emitting two phonemes), and the silent default of a `switch` without
a matching case. -/
def charPhonemes (c : Char) : List String :=
  if c = 'a' then ["ae"] else if c = 'e' then ["eh"]
  else if c = 'i' then ["ih"] else if c = 'o' then ["ao"]
  else if c = 'u' then ["uh"]
  else if c = 'b' then ["b"] else if c = 'c' then ["k"]
  else if c = 'd' then ["d"] else if c = 'f' then ["f"]
  else if c = 'g' then ["g"] else if c = 'h' then ["h"]
  else if c = 'j' then ["jh"] else if c = 'k' then ["k"]
  else if c = 'l' then ["l"] else if c = 'm' then ["m"]
  else if c = 'n' then ["n"] else if c = 'p' then ["p"]
  else if c = 'q' then ["k"] else if c = 'r' then ["r"]
  else if c = 's' then ["s"] else if c = 't' then ["t"]
  else if c = 'v' then ["v"] else if c = 'w' then ["w"]
  else if c = 'x' then ["k", "s"] else if c = 'y' then ["y"]
  else if c = 'z' then ["z"] else []

/-- The scan of `wordToPhonemes` over the cleaned word: the four digraphs
`th`, `sh`, `ch`, `ng` are matched first (consuming two characters), otherwise
one character is consumed and mapped through the switches. -/
def phonemesGo : List Char → List String
  | [] => []
  | [c] => charPhonemes c
  | c :: d :: rest =>
    if c = 't' ∧ d = 'h' then "th" :: phonemesGo rest
    else if c = 's' ∧ d = 'h' then "sh" :: phonemesGo rest
    else if c = 'c' ∧ d = 'h' then "ch" :: phonemesGo rest
    else if c = 'n' ∧ d = 'g' then "ng" :: phonemesGo rest
    else charPhonemes c ++ phonemesGo (d :: rest)

/-- `PhonemeConverter.wordToPhonemes`. -/
def wordToPhonemes (word : String) : List String :=
  phonemesGo (cleanLetters word)

/-- `PhonemeConverter.convertWordsToVisemes`: each word's time slice is split
evenly over its phonemes.  For a word with no phonemes the source divides by
zero (an unused JavaScript `Infinity`); here the unused rational division by
zero yields `0` and, as in the source, no event is emitted. -/
def convertWordsToVisemes (wordTimings : List WordTiming) : List VisemeEvent :=
  wordTimings.flatMap fun wt =>
    let phonemes := wordToPhonemes wt.word
    let wordDuration := wt.endMs - wt.start
    let phonemeDuration := wordDuration / (phonemes.length : Rat)
    phonemes.enum.map fun iv =>
      { viseme := phonemeToViseme iv.2
        start := wt.start + iv.1 * phonemeDuration
        endMs := wt.start + iv.1 * phonemeDuration + phonemeDuration }

/-- Accumulates the maximal non-whitespace runs of the text; the accumulator
holds the current word reversed. -/
def splitWordsAux : List Char → List Char → List String
  | [], acc => if acc = [] then [] else [⟨acc.reverse⟩]
  | c :: cs, acc =>
    if c.isWhitespace then
      (if acc = [] then [] else [⟨acc.reverse⟩]) ++ splitWordsAux cs []
    else splitWordsAux cs (c :: acc)

/-- The word list of `generateVisemeTimeline`:
`text.split(/\s+/).filter(word => word.length > 0)`, i.e. the maximal
whitespace-free runs of the text. -/
def splitWords (text : String) : List String :=
  splitWordsAux text.data []

/-- The `wordTimings` array built by `generateVisemeTimeline`: word `i` is
assigned the slice `[i * avg, (i+1) * avg]` of the audio duration. -/
def mkWordTimings (text : String) (audioDuration : Rat) : List WordTiming :=
  let words := splitWords text
  let avgWordDuration := audioDuration / (words.length : Rat)
  words.enum.map fun iw =>
    { word := iw.2
      start := iw.1 * avgWordDuration
      endMs := (iw.1 + 1) * avgWordDuration }

/-- `PhonemeConverter.generateVisemeTimeline`. -/
def generateVisemeTimeline (text : String) (audioDuration : Rat) : List VisemeEvent :=
  convertWordsToVisemes (mkWordTimings text audioDuration)

end PhonemeConverter

namespace ConversationHook

/-- The viseme-relevant state of `useElevenLabsConversation`:
`visemeTimeoutsRef` is the set of pending scheduled callbacks (delay plus the
viseme code the callback will emit), `lastProcessedMessageRef` the dedup
reference, and `visemeCalls` the trace of codes passed to the global
`visemeCallback` (present only when `hasVisemeCallback`).  `alignRequests`
counts calls of the `/api/elevenlabs/align` endpoint. -/
structure HookState where
  visemeTimeouts : List (Int × Nat)
  lastProcessedMessage : String
  hasVisemeCallback : Bool
  visemeCalls : List Nat
  alignRequests : Nat
  deriving DecidableEq, Repr

/-- `clearAllVisemeTimeouts`: every pending timeout is cleared. -/
def clearAllVisemeTimeouts (s : HookState) : HookState :=
  { s with visemeTimeouts := [] }

/-- `stopConversation`: clear all viseme timeouts, reset the dedup reference,
and if the viseme callback is present invoke it once with the neutral code
`0`.  (The session teardown it also performs is outside this model.) -/
def stopConversation (s : HookState) : HookState :=
  let s1 := { clearAllVisemeTimeouts s with lastProcessedMessage := "" }
  if s1.hasVisemeCallback then { s1 with visemeCalls := s1.visemeCalls ++ [0] }
  else s1

/-- The delay of the terminal neutral reset:
`data.visemes[data.visemes.length - 1]?.end + 200 || 2000`.  An empty array
gives `NaN` (falsy) and a last end of `-200` gives `0` (falsy), both replaced
by `2000`. -/
def resetDelay (vs : List AlignerGrouping.VisemeTimestamp) : Int :=
  match vs.getLast? with
  | none => 2000
  | some last => if last.endMs + 200 = 0 then 2000 else last.endMs + 200

/-- The viseme-relevant effect of the hook's `onMessage` handler.
`alignResult` is the body of a successful alignment response (`none` for a
failed fetch or a non-ok status).  Messages not from the `ai` source are
ignored, as is a message identical to `lastProcessedMessageRef`; otherwise the
pending timeouts are cleared and one timeout per returned viseme plus the
terminal neutral reset are scheduled. -/
def onMessage (s : HookState) (source messageText : String)
    (alignResult : Option (List AlignerGrouping.VisemeTimestamp)) : HookState :=
  if messageText.trim ≠ "" ∧ source = "ai" then
    if s.lastProcessedMessage = messageText then s
    else
      let s1 := { clearAllVisemeTimeouts s with lastProcessedMessage := messageText }
      if s1.hasVisemeCallback then
        let s2 := { s1 with alignRequests := s1.alignRequests + 1 }
        match alignResult with
        | some vs =>
          { s2 with
            visemeTimeouts :=
              vs.map (fun v => (v.start, v.viseme)) ++ [(resetDelay vs, 0)] }
        | none => s2
      else s1
  else s

end ConversationHook

/-- The whitespace and punctuation characters the classifiers are specified
on: space, newline, tab and the punctuation class `. , ! ? : ;`. -/
def wsPunctKeys : List String :=
  [" ", "\n", "\t", ".", ",", "!", "?", ":", ";"]

lemma tblLookup_mem {s : String} {l : List (String × Nat)} {v : Nat}
    (h : tblLookup s l = some v) : v ∈ l.map Prod.snd := by
  induction l with
  | nil => simp [tblLookup] at h
  | cons p t ih =>
    rw [tblLookup] at h
    by_cases hk : s = p.1
    · simp [hk] at h
      simp [← h]
    · simp [hk] at h
      simp [ih h]

lemma jsOrNat_le {o : Option Nat} {d b : Nat} (hd : d ≤ b)
    (hv : ∀ v ∈ o, v ≤ b) : jsOrNat o d ≤ b := by
  cases o with
  | none => simpa [jsOrNat] using hd
  | some v =>
    rw [jsOrNat]
    split
    · exact hd
    · exact hv v rfl

lemma charToVisemeGrouping_bounds (s : String) :
    1 ≤ AlignerGrouping.charToViseme s ∧ AlignerGrouping.charToViseme s ≤ 9 := by
  have hall : ∀ v ∈ AlignerGrouping.charToVisemeMap.map Prod.snd, v ≤ 9 := by decide
  rw [AlignerGrouping.charToViseme]
  cases h : tblLookup s AlignerGrouping.charToVisemeMap with
  | none => simp [jsOrNat]
  | some v =>
    have hv9 : v ≤ 9 := hall v (tblLookup_mem h)
    rw [jsOrNat]
    split
    · omega
    · next hv0 => exact ⟨Nat.one_le_iff_ne_zero.mpr hv0, hv9⟩

lemma charToVisemeSimple_le (s : String) : AlignerSimple.charToViseme s ≤ 9 := by
  have hall : ∀ v ∈ AlignerSimple.charToVisemeMap.map Prod.snd, v ≤ 9 := by decide
  rw [AlignerSimple.charToViseme]
  refine jsOrNat_le (by omega) ?_
  intro v hv
  cases h : tblLookup s AlignerSimple.charToVisemeMap with
  | none => rw [h] at hv; simp at hv
  | some w =>
    rw [h] at hv
    simp at hv
    exact hv ▸ hall w (tblLookup_mem h)

lemma phonemeToVisemeFA_le (p : String) : ForcedAlignment.phonemeToViseme p ≤ 9 := by
  have hall : ∀ v ∈ ForcedAlignment.phonemeToVisemeMap.map Prod.snd, v ≤ 9 := by decide
  rw [ForcedAlignment.phonemeToViseme]
  refine jsOrNat_le (by omega) ?_
  intro v hv
  cases h : tblLookup p ForcedAlignment.phonemeToVisemeMap with
  | none => rw [h] at hv; simp at hv
  | some w =>
    rw [h] at hv
    simp at hv
    exact hv ▸ hall w (tblLookup_mem h)

/-- The classifier of the grouping aligner sends whitespace to a non-neutral
code: the table value of `' '` is `0`, but the `|| 1` fallback treats the
falsy `0` like a missing key and returns `1`. -/
theorem claim1_counterexample :
    AlignerGrouping.charToViseme " " = 1 ∧ AlignerGrouping.charToViseme " " ≠ 0 := by
  decide

/-- C1 (amended): every classifier is total with codes inside the fixed
viseme set `0`‥`9` (the grouping classifier even inside `1`‥`9`); for every
whitespace or punctuation character the simple aligner's `charToViseme` and
the forced-alignment `phonemeToViseme` return the neutral code `0`, while the
grouping aligner's `charToViseme` returns `1` because its `|| 1` fallback
coerces the neutral table value. -/
theorem claim1_theorem :
    (∀ s, 1 ≤ AlignerGrouping.charToViseme s ∧ AlignerGrouping.charToViseme s ≤ 9) ∧
    (∀ s, AlignerSimple.charToViseme s ≤ 9) ∧
    (∀ p, ForcedAlignment.phonemeToViseme p ≤ 9) ∧
    (∀ s ∈ wsPunctKeys,
      AlignerSimple.charToViseme s = 0 ∧ ForcedAlignment.phonemeToViseme s = 0 ∧
        AlignerGrouping.charToViseme s = 1) := by
  refine ⟨charToVisemeGrouping_bounds, charToVisemeSimple_le, phonemeToVisemeFA_le, ?_⟩
  decide

/-- Witness for C1 at the concrete character `' '`. -/
theorem claim1_witness :
    AlignerSimple.charToViseme " " = 0 ∧ ForcedAlignment.phonemeToViseme " " = 0 ∧
      AlignerGrouping.charToViseme " " = 1 :=
  claim1_theorem.2.2.2 " " (by decide)

namespace AlignerGrouping

@[simp] lemma mergeInto_viseme (prev cur : VisemeTimestamp) :
    (mergeInto prev cur).viseme = prev.viseme := rfl

/-- Adjacent smoothed events never share a code. -/
def DistinctAdj (a b : VisemeTimestamp) : Prop := a.viseme ≠ b.viseme

lemma chain_distinct_replace_head {p q : VisemeTimestamp} {t : List VisemeTimestamp}
    (hpq : p.viseme = q.viseme) (h : List.Chain' DistinctAdj (p :: t)) :
    List.Chain' DistinctAdj (q :: t) := by
  cases t with
  | nil => simp
  | cons b u =>
    rw [List.chain'_cons] at h ⊢
    refine ⟨?_, h.2⟩
    have h1 : p.viseme ≠ b.viseme := h.1
    show q.viseme ≠ b.viseme
    rw [← hpq]
    exact h1

lemma smoothGo_chain :
    ∀ rest acc, List.Chain' DistinctAdj acc →
      List.Chain' DistinctAdj (smoothGo acc rest) := by
  intro rest
  induction rest with
  | nil =>
    intro acc h
    rw [smoothGo]
    rw [List.chain'_reverse]
    exact h.imp fun a b hab => Ne.symm hab
  | cons cur rest ih =>
    intro acc h
    match acc with
    | [] =>
      rw [smoothGo]
      exact ih [cur] (List.chain'_singleton cur)
    | prev :: accTail =>
      rw [smoothGo]
      split
      · exact ih _ (chain_distinct_replace_head (mergeInto_viseme prev cur).symm h)
      · split
        · exact ih _ (chain_distinct_replace_head (mergeInto_viseme prev cur).symm h)
        · next hne =>
          exact ih _ (List.chain'_cons.mpr ⟨fun he => hne he.symm, h⟩)

lemma smooth_chain (vs : List VisemeTimestamp) :
    List.Chain' DistinctAdj (smoothVisemeSequence vs) := by
  rw [smoothVisemeSequence]
  split
  · next hlen =>
    match vs, hlen with
    | [], _ => simp
    | [a], _ => simp
  · exact smoothGo_chain vs [] (by simp)

end AlignerGrouping

/-- C2 (confirmed): for every alignment input, no two consecutive viseme
events returned by the grouping conversion (which ends with the smoothing
pass) share the same viseme code. -/
theorem claim2_theorem (al : List AlignerGrouping.CharTiming) :
    List.Chain' (fun a b => a.viseme ≠ b.viseme)
      (AlignerGrouping.convertAlignmentToVisemes al) :=
  AlignerGrouping.smooth_chain _

namespace AlignerGrouping

lemma smoothGo_nil_acc (cur : VisemeTimestamp) (rest : List VisemeTimestamp) :
    smoothGo [] (cur :: rest) = smoothGo [cur] rest := by
  simp only [smoothGo]

lemma smoothGo_short (prev cur : VisemeTimestamp)
    (accTail rest : List VisemeTimestamp)
    (h : cur.endMs - cur.start < minDuration) :
    smoothGo (prev :: accTail) (cur :: rest) =
      smoothGo (mergeInto prev cur :: accTail) rest := by
  simp only [smoothGo, if_pos h]

lemma smoothGo_push (prev cur : VisemeTimestamp)
    (accTail rest : List VisemeTimestamp)
    (hd : ¬cur.endMs - cur.start < minDuration) (hv : ¬prev.viseme = cur.viseme) :
    smoothGo (prev :: accTail) (cur :: rest) =
      smoothGo (cur :: prev :: accTail) rest := by
  simp only [smoothGo, if_neg hd, if_neg hv]

lemma smoothGo_bottom :
    ∀ (rest l : List VisemeTimestamp) (x : VisemeTimestamp), l ≠ [] →
      ∃ m, m ≠ [] ∧ smoothGo (l ++ [x]) rest = (m ++ [x]).reverse := by
  intro rest
  induction rest with
  | nil =>
    intro l x hl
    exact ⟨l, hl, by rw [smoothGo]⟩
  | cons cur rest ih =>
    intro l x hl
    match l, hl with
    | p :: t, _ =>
      rw [List.cons_append]
      by_cases hd : cur.endMs - cur.start < minDuration
      · rw [smoothGo_short p cur (t ++ [x]) rest hd, ← List.cons_append]
        exact ih (mergeInto p cur :: t) x (by simp)
      · by_cases hv : p.viseme = cur.viseme
        · rw [show smoothGo (p :: (t ++ [x])) (cur :: rest) =
              smoothGo (mergeInto p cur :: (t ++ [x])) rest by
            simp only [smoothGo, if_neg hd, if_pos hv], ← List.cons_append]
          exact ih (mergeInto p cur :: t) x (by simp)
        · rw [smoothGo_push p cur (t ++ [x]) rest hd hv,
            show cur :: p :: (t ++ [x]) = (cur :: p :: t) ++ [x] by simp]
          exact ih (cur :: p :: t) x (by simp)

end AlignerGrouping

/-- The smoother leaves a sub-minimum-duration first event entirely alone when
the following event is long enough and carries a different code: the output
equals the input, so the short first event was neither merged nor extended
into the next event. -/
theorem claim3_counterexample :
    AlignerGrouping.smoothVisemeSequence
        [⟨1, 0, 50, "a"⟩, ⟨2, 50, 200, "b"⟩] =
      [⟨1, 0, 50, "a"⟩, ⟨2, 50, 200, "b"⟩] ∧
    (50 : Int) - 0 < AlignerGrouping.minDuration := by
  constructor
  · rfl
  · decide

/-- C3 (amended): in the single left-to-right pass, a sub-minimum-duration
event that is not in first position is merged into the previous kept event by
extending that event's end and concatenating its source text; a sub-minimum
first event, however, is kept unchanged as its own event (it is not extended
into the next one), remaining the head of the output. -/
theorem claim3_theorem (e₁ e₂ : AlignerGrouping.VisemeTimestamp)
    (rest : List AlignerGrouping.VisemeTimestamp) :
    (e₂.endMs - e₂.start < AlignerGrouping.minDuration →
      AlignerGrouping.smoothVisemeSequence (e₁ :: e₂ :: rest) =
        AlignerGrouping.smoothVisemeSequence
          (AlignerGrouping.mergeInto e₁ e₂ :: rest)) ∧
    (e₁.endMs - e₁.start < AlignerGrouping.minDuration →
      ¬e₂.endMs - e₂.start < AlignerGrouping.minDuration →
      e₁.viseme ≠ e₂.viseme →
      (AlignerGrouping.smoothVisemeSequence (e₁ :: e₂ :: rest)).head? = some e₁) := by
  have hstep : AlignerGrouping.smoothVisemeSequence (e₁ :: e₂ :: rest) =
      AlignerGrouping.smoothGo [e₁] (e₂ :: rest) := by
    rw [AlignerGrouping.smoothVisemeSequence, if_neg (by simp),
      AlignerGrouping.smoothGo_nil_acc]
  constructor
  · intro h
    rw [hstep, AlignerGrouping.smoothGo_short e₁ e₂ [] rest h]
    cases rest with
    | nil =>
      rw [AlignerGrouping.smoothVisemeSequence, if_pos (by simp),
        AlignerGrouping.smoothGo]
      rfl
    | cons r rs =>
      rw [AlignerGrouping.smoothVisemeSequence, if_neg (by simp),
        AlignerGrouping.smoothGo_nil_acc]
  · intro _ hd hv
    rw [hstep, AlignerGrouping.smoothGo_push e₁ e₂ [] rest hd hv]
    obtain ⟨m, _, heq⟩ :=
      AlignerGrouping.smoothGo_bottom rest [e₂] e₁ (by simp)
    rw [show e₂ :: e₁ :: ([] : List AlignerGrouping.VisemeTimestamp) =
        [e₂] ++ [e₁] by simp, heq]
    simp

/-- Witness for C3: the merge branch at a concrete short second event, and the
kept-unchanged branch at a concrete short first event. -/
theorem claim3_witness :
    AlignerGrouping.smoothVisemeSequence [⟨3, 0, 200, "x"⟩, ⟨5, 200, 230, "y"⟩] =
      AlignerGrouping.smoothVisemeSequence
        [AlignerGrouping.mergeInto ⟨3, 0, 200, "x"⟩ ⟨5, 200, 230, "y"⟩] ∧
    (AlignerGrouping.smoothVisemeSequence
        [⟨1, 0, 60, "c"⟩, ⟨2, 60, 210, "d"⟩]).head? = some ⟨1, 0, 60, "c"⟩ :=
  ⟨(claim3_theorem ⟨3, 0, 200, "x"⟩ ⟨5, 200, 230, "y"⟩ []).1 (by decide),
   (claim3_theorem ⟨1, 0, 60, "c"⟩ ⟨2, 60, 210, "d"⟩ []).2 (by decide) (by decide)
     (by decide)⟩

namespace AlignerGrouping

lemma domFold_le (counts : Nat → Nat) :
    ∀ (keys : List Nat) (d m : Nat), m ≤ (domFold counts keys (d, m)).2 := by
  intro keys
  induction keys with
  | nil => intro d m; simp [domFold]
  | cons v keys ih =>
    intro d m
    rw [domFold]
    split
    · next h => exact le_trans h.2.le (ih v (counts v))
    · exact ih d m

lemma domFold_max (counts : Nat → Nat) :
    ∀ (keys : List Nat) (d m v : Nat), v ∈ keys → v ≠ 0 →
      counts v ≤ (domFold counts keys (d, m)).2 := by
  intro keys
  induction keys with
  | nil => intro d m v hv; exact absurd hv (by simp)
  | cons v₀ keys ih =>
    intro d m v hv hv0
    rw [domFold]
    rcases List.mem_cons.mp hv with rfl | hv'
    · split
      · exact domFold_le counts keys v (counts v)
      · next hno =>
        have hle : counts v ≤ m := by
          by_contra hlt
          exact hno ⟨hv0, Nat.lt_of_not_le hlt⟩
        exact le_trans hle (domFold_le counts keys d m)
    · split
      · exact ih v₀ (counts v₀) v hv' hv0
      · exact ih d m v hv' hv0

lemma domFold_stay (counts : Nat → Nat) :
    ∀ (keys : List Nat) (d m : Nat),
      (domFold counts keys (d, m)).2 = m → (domFold counts keys (d, m)).1 = d := by
  intro keys
  induction keys with
  | nil => intro d m _; rfl
  | cons v₀ keys ih =>
    intro d m
    rw [domFold]
    split
    · next h =>
      intro heq
      have := domFold_le counts keys v₀ (counts v₀)
      omega
    · exact ih d m

lemma domFold_sel (counts : Nat → Nat) :
    ∀ (keys : List Nat) (d m : Nat),
      domFold counts keys (d, m) = (d, m) ∨
        ((domFold counts keys (d, m)).1 ∈ keys ∧
          (domFold counts keys (d, m)).1 ≠ 0 ∧
          counts (domFold counts keys (d, m)).1 = (domFold counts keys (d, m)).2) := by
  intro keys
  induction keys with
  | nil => intro d m; left; rfl
  | cons v₀ keys ih =>
    intro d m
    rw [domFold]
    split
    · next h =>
      right
      rcases ih v₀ (counts v₀) with heq | hsel
      · rw [heq]
        exact ⟨List.mem_cons_self v₀ keys, h.1, rfl⟩
      · exact ⟨List.mem_cons_of_mem v₀ hsel.1, hsel.2⟩
    · rcases ih d m with heq | hsel
      · left; exact heq
      · right; exact ⟨List.mem_cons_of_mem v₀ hsel.1, hsel.2⟩

lemma domFold_least (counts : Nat → Nat) :
    ∀ (keys : List Nat), List.Pairwise (· ≤ ·) keys →
      ∀ d m : Nat, (∀ v ∈ keys, v ≠ 0 → counts v = m → d ≤ v) →
        ∀ v ∈ keys, v ≠ 0 → counts v = (domFold counts keys (d, m)).2 →
          (domFold counts keys (d, m)).1 ≤ v := by
  intro keys
  induction keys with
  | nil => intro _ d m _ v hv; exact absurd hv (by simp)
  | cons v₀ keys ih =>
    intro hpw d m hpre v hv hv0
    obtain ⟨hle₀, hpw'⟩ := List.pairwise_cons.mp hpw
    rw [domFold]
    split
    · next hupd =>
      intro hcnt
      rcases List.mem_cons.mp hv with rfl | hv'
      · rw [domFold_stay counts keys v (counts v) hcnt.symm]
      · exact ih hpw' v₀ (counts v₀)
          (fun u hu _ _ => hle₀ u hu) v hv' hv0 hcnt
    · next hno =>
      intro hcnt
      rcases List.mem_cons.mp hv with rfl | hv'
      · have hlem : counts v ≤ m := by
          by_contra hlt
          exact hno ⟨hv0, Nat.lt_of_not_le hlt⟩
        have hfin := domFold_le counts keys d m
        have hm : (domFold counts keys (d, m)).2 = m := by omega
        rw [domFold_stay counts keys d m hm]
        exact hpre v (List.mem_cons_self v keys) hv0 (by omega)
      · exact ih hpw' d m
          (fun u hu hu0 hcu => hpre u (List.mem_cons_of_mem v₀ hu) hu0 hcu)
          v hv' hv0 hcnt

lemma visemeCounts_zero (chars : List String) : visemeCounts chars 0 = 0 := by
  rw [visemeCounts, List.count_eq_zero]
  intro hmem
  obtain ⟨c, _, hc⟩ := List.mem_map.mp hmem
  have := (charToVisemeGrouping_bounds (strToLower c)).1
  omega

lemma visemeCounts_big (chars : List String) (v : Nat) (hv : 10 ≤ v) :
    visemeCounts chars v = 0 := by
  rw [visemeCounts, List.count_eq_zero]
  intro hmem
  obtain ⟨c, _, hc⟩ := List.mem_map.mp hmem
  have := (charToVisemeGrouping_bounds (strToLower c)).2
  omega

lemma visemeCounts_head (c : String) (cs : List String) :
    1 ≤ visemeCounts (c :: cs) (charToViseme (strToLower c)) := by
  rw [visemeCounts]
  have hmem : charToViseme (strToLower c) ∈
      (c :: cs).map (fun x => charToViseme (strToLower x)) :=
    List.mem_map_of_mem _ (List.mem_cons_self c cs)
  exact List.count_pos_iff.mpr hmem

end AlignerGrouping

/-- The characters `t` then `a` classify to the tied codes `8` and `1`; the
first non-neutral character encountered carries code `8`, yet the dominant
code comes out as `1`: `Object.entries` enumerates the integer-like count
keys in ascending numeric order, so ties break toward the smallest code, not
toward the first code encountered. -/
theorem claim4_counterexample :
    AlignerGrouping.getDominantViseme ["t", "a"] = 1 ∧
    AlignerGrouping.charToViseme (strToLower "t") = 8 ∧
    AlignerGrouping.visemeCounts ["t", "a"] 8 =
      AlignerGrouping.visemeCounts ["t", "a"] 1 := by
  decide

lemma getDominantViseme_spec (chars : List String) (h : chars ≠ []) :
    1 ≤ AlignerGrouping.getDominantViseme chars ∧
    AlignerGrouping.getDominantViseme chars ≤ 9 ∧
    (∀ v, AlignerGrouping.visemeCounts chars v ≤
      AlignerGrouping.visemeCounts chars (AlignerGrouping.getDominantViseme chars)) ∧
    (∀ v, v ≠ 0 →
      AlignerGrouping.visemeCounts chars v =
        AlignerGrouping.visemeCounts chars (AlignerGrouping.getDominantViseme chars) →
      AlignerGrouping.getDominantViseme chars ≤ v) := by
  obtain ⟨c, cs, rfl⟩ := List.exists_cons_of_ne_nil h
  have hpw : List.Pairwise (· ≤ ·) (List.range 10) := by decide
  have hv₁ := charToVisemeGrouping_bounds (strToLower c)
  have h1 := AlignerGrouping.visemeCounts_head c cs
  have hv₁mem : AlignerGrouping.charToViseme (strToLower c) ∈ List.range 10 := by
    rw [List.mem_range]; omega
  have hmax : ∀ v ∈ List.range 10, v ≠ 0 →
      AlignerGrouping.visemeCounts (c :: cs) v ≤
        (AlignerGrouping.domFold (AlignerGrouping.visemeCounts (c :: cs))
          (List.range 10) (0, 0)).2 :=
    fun v hv hv0 =>
      AlignerGrouping.domFold_max (AlignerGrouping.visemeCounts (c :: cs))
        (List.range 10) 0 0 v hv hv0
  rcases AlignerGrouping.domFold_sel (AlignerGrouping.visemeCounts (c :: cs))
      (List.range 10) 0 0 with heq | ⟨hDmem, hD0, hDcnt⟩
  · exfalso
    have := hmax _ hv₁mem (by omega)
    rw [heq] at this
    omega
  · rw [AlignerGrouping.getDominantViseme]
    have hD9 : (AlignerGrouping.domFold (AlignerGrouping.visemeCounts (c :: cs))
        (List.range 10) (0, 0)).1 ≤ 9 := by
      have := List.mem_range.mp hDmem
      omega
    refine ⟨by omega, hD9, ?_, ?_⟩
    · intro v
      rw [hDcnt]
      by_cases hv0 : v = 0
      · subst hv0
        rw [AlignerGrouping.visemeCounts_zero]
        exact Nat.zero_le _
      · by_cases hv10 : v < 10
        · exact hmax v (List.mem_range.mpr hv10) hv0
        · rw [AlignerGrouping.visemeCounts_big (c :: cs) v (by omega)]
          exact Nat.zero_le _
    · intro v hv0 hcv
      by_cases hv10 : v < 10
      · exact AlignerGrouping.domFold_least
          (AlignerGrouping.visemeCounts (c :: cs)) (List.range 10) hpw 0 0
          (fun u _ _ _ => Nat.zero_le u) v (List.mem_range.mpr hv10) hv0
          (by rw [hcv, hDcnt])
      · exfalso
        rw [AlignerGrouping.visemeCounts_big (c :: cs) v (by omega), hDcnt] at hcv
        have := hmax _ hv₁mem (by omega)
        omega

/-- C4 (amended): for a non-empty group the selected code is non-neutral
(between `1` and `9`), its count is maximal among all codes, and whenever
another non-neutral code ties with it for the maximum count, the selected
code is the numerically smallest such code. -/
theorem claim4_theorem (chars : List String) (h : chars ≠ []) :
    1 ≤ AlignerGrouping.getDominantViseme chars ∧
    AlignerGrouping.getDominantViseme chars ≤ 9 ∧
    (∀ v, AlignerGrouping.visemeCounts chars v ≤
      AlignerGrouping.visemeCounts chars (AlignerGrouping.getDominantViseme chars)) ∧
    (∀ v, v ≠ 0 →
      AlignerGrouping.visemeCounts chars v =
        AlignerGrouping.visemeCounts chars (AlignerGrouping.getDominantViseme chars) →
      AlignerGrouping.getDominantViseme chars ≤ v) :=
  getDominantViseme_spec chars h

/-- Witness for C4 at the tied group `["t", "a"]`: the selected code is at
most the tied non-neutral code `1` and is itself non-neutral. -/
theorem claim4_witness :
    AlignerGrouping.getDominantViseme ["t", "a"] ≤ 1 ∧
    1 ≤ AlignerGrouping.getDominantViseme ["t", "a"] :=
  ⟨( claim4_theorem ["t", "a"] (by decide)).2.2.2 1 (by decide) (by decide),
   ( claim4_theorem ["t", "a"] (by decide)).1⟩

lemma getDominantViseme_bounds (chars : List String) (h : chars ≠ []) :
    1 ≤ AlignerGrouping.getDominantViseme chars ∧
    AlignerGrouping.getDominantViseme chars ≤ 9 :=
  ⟨(getDominantViseme_spec chars h).1, (getDominantViseme_spec chars h).2.1⟩

namespace AlignerGrouping

/-- Input entries are ordered and non-overlapping: each entry ends no later
than the next one starts. -/
def TimingOrdered (a b : CharTiming) : Prop :=
  a.startMs + a.durationMs ≤ b.startMs

/-- Produced groups are ordered and non-overlapping: each group ends no later
than the next one starts. -/
def GroupOrdered (g h : PhonemeGroup) : Prop :=
  g.endTime ≤ h.startTime

instance : DecidableRel TimingOrdered := fun a b =>
  inferInstanceAs (Decidable (a.startMs + a.durationMs ≤ b.startMs))

instance : DecidableRel GroupOrdered := fun g h =>
  inferInstanceAs (Decidable (g.endTime ≤ h.startTime))

lemma chain_starts :
    ∀ (rest : List CharTiming) (e : CharTiming),
      List.Chain' TimingOrdered (e :: rest) →
      (∀ x ∈ rest, 0 ≤ x.durationMs) →
      ∀ x ∈ rest, e.startMs + e.durationMs ≤ x.startMs := by
  intro rest
  induction rest with
  | nil => intro e _ _ x hx; exact absurd hx (by simp)
  | cons f rs ih =>
    intro e hchain hdur x hx
    obtain ⟨hef, hchain'⟩ := List.chain'_cons.mp hchain
    rcases List.mem_cons.mp hx with rfl | hx'
    · exact hef
    · have hf := ih f hchain' (fun y hy => hdur y (List.mem_cons_of_mem f hy)) x hx'
      have hfd := hdur f (List.mem_cons_self f rs)
      have : e.startMs + e.durationMs ≤ f.startMs := hef
      omega

lemma groupGo_start_lb :
    ∀ (input : List CharTiming) (cur : List String) (gs ge b : Int),
      (cur ≠ [] → b ≤ gs) → (∀ x ∈ input, b ≤ x.startMs) →
      ∀ g ∈ groupGo input cur gs ge, b ≤ g.startTime := by
  intro input
  induction input with
  | nil =>
    intro cur gs ge b hcur _ g hg
    rw [groupGo] at hg
    split at hg
    · exact absurd hg (by simp)
    · next hne =>
      rw [List.mem_singleton] at hg
      subst hg
      exact hcur hne
  | cons e rest ih =>
    intro cur gs ge b hcur hin g hg
    rw [groupGo] at hg
    split at hg
    · split at hg
      · exact ih [] gs ge b (by simp) (fun x hx => hin x (List.mem_cons_of_mem e hx)) g hg
      · next hne =>
        rcases List.mem_cons.mp hg with rfl | hg'
        · exact hcur hne
        · exact ih [] gs ge b (by simp)
            (fun x hx => hin x (List.mem_cons_of_mem e hx)) g hg'
    · simp only at hg
      have hgs2 : b ≤ if cur = [] then e.startMs else gs := by
        split
        · exact hin e (List.mem_cons_self e rest)
        · next hne => exact hcur hne
      split at hg
      · rcases List.mem_cons.mp hg with rfl | hg'
        · exact hgs2
        · exact ih [] _ _ b (by simp)
            (fun x hx => hin x (List.mem_cons_of_mem e hx)) g hg'
      · exact ih (cur ++ [e.char]) _ _ b (fun _ => hgs2)
          (fun x hx => hin x (List.mem_cons_of_mem e hx)) g hg

lemma groupGo_wellformed :
    ∀ (input : List CharTiming) (cur : List String) (gs ge : Int),
      (∀ x ∈ input, 0 ≤ x.durationMs) →
      List.Chain' TimingOrdered input →
      (cur ≠ [] → gs ≤ ge) →
      (cur ≠ [] → ∀ x ∈ input, ge ≤ x.startMs) →
      ∀ g ∈ groupGo input cur gs ge, g.startTime ≤ g.endTime := by
  intro input
  induction input with
  | nil =>
    intro cur gs ge _ _ hcur _ g hg
    rw [groupGo] at hg
    split at hg
    · exact absurd hg (by simp)
    · next hne =>
      rw [List.mem_singleton] at hg
      subst hg
      exact hcur hne
  | cons e rest ih =>
    intro cur gs ge hdur hchain hcur hge g hg
    have hdur' : ∀ x ∈ rest, 0 ≤ x.durationMs :=
      fun x hx => hdur x (List.mem_cons_of_mem e hx)
    have hchain' : List.Chain' TimingOrdered rest := hchain.tail
    rw [groupGo] at hg
    split at hg
    · split at hg
      · exact ih [] gs ge hdur' hchain' (by simp) (by simp) g hg
      · next hne =>
        rcases List.mem_cons.mp hg with rfl | hg'
        · exact hcur hne
        · exact ih [] gs ge hdur' hchain' (by simp) (by simp) g hg'
    · next hw =>
      simp only at hg
      have hde : 0 ≤ e.durationMs := hdur e (List.mem_cons_self e rest)
      have hgs2 : (if cur = [] then e.startMs else gs) ≤ e.startMs + e.durationMs := by
        split
        · omega
        · next hne =>
          have h1 := hcur hne
          have h2 := hge hne e (List.mem_cons_self e rest)
          omega
      have hrest : ∀ x ∈ rest, e.startMs + e.durationMs ≤ x.startMs :=
        chain_starts rest e hchain hdur'
      split at hg
      · rcases List.mem_cons.mp hg with rfl | hg'
        · exact hgs2
        · exact ih [] _ _ hdur' hchain' (by simp) (by simp) g hg'
      · exact ih (cur ++ [e.char]) _ _ hdur' hchain'
          (fun _ => hgs2) (fun _ => hrest) g hg

lemma groupGo_chain :
    ∀ (input : List CharTiming) (cur : List String) (gs ge : Int),
      (∀ x ∈ input, 0 ≤ x.durationMs) →
      List.Chain' TimingOrdered input →
      (cur ≠ [] → gs ≤ ge) →
      (cur ≠ [] → ∀ x ∈ input, ge ≤ x.startMs) →
      List.Chain' GroupOrdered (groupGo input cur gs ge) := by
  intro input
  induction input with
  | nil =>
    intro cur gs ge _ _ _ _
    rw [groupGo]
    split
    · simp
    · simp
  | cons e rest ih =>
    intro cur gs ge hdur hchain hcur hge
    have hdur' : ∀ x ∈ rest, 0 ≤ x.durationMs :=
      fun x hx => hdur x (List.mem_cons_of_mem e hx)
    have hchain' : List.Chain' TimingOrdered rest := hchain.tail
    rw [groupGo]
    split
    · next hw =>
      split
      · exact ih [] gs ge hdur' hchain' (by simp) (by simp)
      · next hne =>
        rw [List.chain'_cons']
        refine ⟨?_, ih [] gs ge hdur' hchain' (by simp) (by simp)⟩
        intro y hy
        have hmem := List.mem_of_mem_head? hy
        exact groupGo_start_lb rest [] gs ge ge (by simp)
          (hge hne · <| List.mem_cons_of_mem e ·) y hmem
    · next hw =>
      simp only
      have hde : 0 ≤ e.durationMs := hdur e (List.mem_cons_self e rest)
      have hgs2 : (if cur = [] then e.startMs else gs) ≤ e.startMs + e.durationMs := by
        split
        · omega
        · next hne =>
          have h1 := hcur hne
          have h2 := hge hne e (List.mem_cons_self e rest)
          omega
      have hrest : ∀ x ∈ rest, e.startMs + e.durationMs ≤ x.startMs :=
        chain_starts rest e hchain hdur'
      split
      · rw [List.chain'_cons']
        refine ⟨?_, ih [] _ _ hdur' hchain' (by simp) (by simp)⟩
        intro y hy
        have hmem := List.mem_of_mem_head? hy
        exact groupGo_start_lb rest [] _ _ (e.startMs + e.durationMs) (by simp)
          hrest y hmem
      · exact ih (cur ++ [e.char]) _ _ hdur' hchain'
          (fun _ => hgs2) (fun _ => hrest)

end AlignerGrouping

/-- A retained zero-duration non-whitespace entry produces a group whose end
equals its start: the strict invariant `endMs > startMs` fails on it. -/
theorem claim5_counterexample :
    AlignerGrouping.groupCharactersIntoPhonemes [⟨"a", 0, 0⟩] =
      [⟨["a"], 0, 0⟩] ∧
    ¬((0 : Int) < 0) := by
  decide

/-- C5 (amended): for every ordered, non-overlapping input with non-negative
durations, every produced group satisfies `startTime ≤ endTime` (equality is
possible exactly when a retained entry has zero duration, so the strict
`endMs > startMs` of the claim does not hold in general), and the groups are
ordered and non-overlapping. -/
theorem claim5_theorem (al : List AlignerGrouping.CharTiming)
    (hdur : ∀ x ∈ al, 0 ≤ x.durationMs)
    (hord : List.Chain' AlignerGrouping.TimingOrdered al) :
    (∀ g ∈ AlignerGrouping.groupCharactersIntoPhonemes al,
      g.startTime ≤ g.endTime) ∧
    List.Chain' AlignerGrouping.GroupOrdered
      (AlignerGrouping.groupCharactersIntoPhonemes al) :=
  ⟨fun g hg => AlignerGrouping.groupGo_wellformed al [] 0 0 hdur hord
      (by simp) (by simp) g hg,
    AlignerGrouping.groupGo_chain al [] 0 0 hdur hord (by simp) (by simp)⟩

/-- Witness for C5 at a two-entry input containing a zero-duration retained
entry. -/
theorem claim5_witness :
    List.Chain' AlignerGrouping.GroupOrdered
      (AlignerGrouping.groupCharactersIntoPhonemes
        [⟨"a", 0, 100⟩, ⟨"b", 100, 0⟩]) :=
  ( claim5_theorem [⟨"a", 0, 100⟩, ⟨"b", 100, 0⟩] (by decide)
    (List.chain'_cons.mpr ⟨by decide, List.chain'_singleton _⟩)).2

/-- Calling `stopConversation` twice from a state with a registered viseme
callback emits the neutral reset `0` twice, and the second call is not a
no-op: it changes the state again by appending another neutral emission. -/
theorem claim6_counterexample :
    (ConversationHook.stopConversation (ConversationHook.stopConversation
        ⟨[(100, 3)], "hello", true, [], 0⟩)).visemeCalls = [0, 0] ∧
    ConversationHook.stopConversation (ConversationHook.stopConversation
        ⟨[(100, 3)], "hello", true, [], 0⟩) ≠
      ConversationHook.stopConversation ⟨[(100, 3)], "hello", true, [], 0⟩ := by
  decide

/-- C6 (amended): each `stopConversation` call clears every pending scheduled
viseme callback and emits one neutral reset; calling it twice leaves no
pending callback but emits two neutral resets in total — the second call is a
no-op on the pending-timeout set yet not on the emission trace. -/
theorem claim6_theorem (s : ConversationHook.HookState)
    (h : s.hasVisemeCallback = true) :
    (ConversationHook.stopConversation s).visemeTimeouts = [] ∧
    (ConversationHook.stopConversation s).visemeCalls = s.visemeCalls ++ [0] ∧
    (ConversationHook.stopConversation
      (ConversationHook.stopConversation s)).visemeTimeouts = [] ∧
    (ConversationHook.stopConversation
        (ConversationHook.stopConversation s)).visemeCalls =
      s.visemeCalls ++ [0, 0] := by
  simp [ConversationHook.stopConversation, ConversationHook.clearAllVisemeTimeouts, h]

/-- Witness for C6 at a concrete state with one pending callback. -/
theorem claim6_witness :
    (ConversationHook.stopConversation
      ⟨[(100, 3)], "hello", true, [], 0⟩).visemeTimeouts = [] ∧
    (ConversationHook.stopConversation
      ⟨[(100, 3)], "hello", true, [], 0⟩).visemeCalls = [] ++ [0] ∧
    (ConversationHook.stopConversation (ConversationHook.stopConversation
      ⟨[(100, 3)], "hello", true, [], 0⟩)).visemeTimeouts = [] ∧
    (ConversationHook.stopConversation (ConversationHook.stopConversation
      ⟨[(100, 3)], "hello", true, [], 0⟩)).visemeCalls = [] ++ [0, 0] :=
  claim6_theorem ⟨[(100, 3)], "hello", true, [], 0⟩ rfl

/-- C7 (confirmed): a redelivered agent message whose text equals the last
processed one leaves the hook state unchanged — in particular no viseme
timeout is created and no alignment request is issued. -/
theorem claim7_theorem (s : ConversationHook.HookState)
    (source messageText : String)
    (r : Option (List AlignerGrouping.VisemeTimestamp))
    (h : s.lastProcessedMessage = messageText) :
    ConversationHook.onMessage s source messageText r = s ∧
    (ConversationHook.onMessage s source messageText r).visemeTimeouts =
      s.visemeTimeouts ∧
    (ConversationHook.onMessage s source messageText r).alignRequests =
      s.alignRequests := by
  have hid : ConversationHook.onMessage s source messageText r = s := by
    rw [ConversationHook.onMessage]
    by_cases hc : messageText.trim ≠ "" ∧ source = "ai"
    · rw [if_pos hc, if_pos h]
    · rw [if_neg hc]
  exact ⟨hid, by rw [hid], by rw [hid]⟩

/-- Witness for C7: redelivering `"hello"` over a state that has already
processed `"hello"` changes nothing. -/
theorem claim7_witness :
    ConversationHook.onMessage ⟨[(5, 2)], "hello", true, [], 1⟩ "ai" "hello"
        (some [⟨1, 0, 200, "a"⟩]) =
      ⟨[(5, 2)], "hello", true, [], 1⟩ :=
  (claim7_theorem ⟨[(5, 2)], "hello", true, [], 1⟩ "ai" "hello"
    (some [⟨1, 0, 200, "a"⟩]) rfl).1

namespace AlignerGrouping

lemma groupGo_flatMap :
    ∀ (input : List CharTiming) (cur : List String) (gs ge : Int),
      (groupGo input cur gs ge).flatMap PhonemeGroup.chars =
        cur ++ (input.map CharTiming.char).filter
          (fun c => !isWhitespaceOrPunct c) := by
  intro input
  induction input with
  | nil =>
    intro cur gs ge
    rw [groupGo]
    split
    · next h => simp [h]
    · simp
  | cons e rest ih =>
    intro cur gs ge
    rw [groupGo]
    split
    · next hw =>
      split
      · next hc => simp [hc, ih, hw]
      · simp [ih, hw]
    · next hw =>
      simp only
      split
      · simp [ih, hw]
      · simp [ih, hw]

end AlignerGrouping

/-- A negative-timestamp entry is not discarded: the conversion turns the
single entry starting at `-50` into a viseme event that starts at `-50`. -/
theorem claim8_counterexample :
    AlignerGrouping.convertAlignmentToVisemes [⟨"a", -50, 60⟩] =
      [⟨1, -50, 10, "a"⟩] ∧ (-50 : Int) < 0 := by
  decide

/-- C8 (amended): the grouper never validates or discards an entry because of
its timestamps — the characters surviving grouping are exactly the
non-whitespace, non-punctuation input characters, whatever the timestamps
are, and processing always continues over all entries. -/
theorem claim8_theorem (al : List AlignerGrouping.CharTiming) :
    (AlignerGrouping.groupCharactersIntoPhonemes al).flatMap
        AlignerGrouping.PhonemeGroup.chars =
      (al.map AlignerGrouping.CharTiming.char).filter
        (fun c => !AlignerGrouping.isWhitespaceOrPunct c) :=
  AlignerGrouping.groupGo_flatMap al [] 0 0

namespace PhonemeConverter

lemma charPhonemes_key :
    ∀ n ∈ List.range 26, charPhonemes (Char.ofNat (97 + n)) ≠ [] := by
  decide

lemma charPhonemes_ne_nil (c : Char) (h : isLowerAlpha c = true) :
    charPhonemes c ≠ [] := by
  rw [isLowerAlpha, Bool.and_eq_true, decide_eq_true_eq, decide_eq_true_eq] at h
  have hlo : 97 ≤ c.toNat := h.1
  have hhi : c.toNat ≤ 122 := h.2
  have hmem : c.toNat - 97 ∈ List.range 26 := by
    rw [List.mem_range]
    omega
  have hk := charPhonemes_key (c.toNat - 97) hmem
  have heq : 97 + (c.toNat - 97) = c.toNat := by omega
  rw [heq, Char.ofNat_toNat] at hk
  exact hk

lemma phonemesGo_ne_nil :
    ∀ cs : List Char, cs ≠ [] → (∀ c ∈ cs, isLowerAlpha c = true) →
      phonemesGo cs ≠ [] := by
  intro cs
  match cs with
  | [] => intro h; exact absurd rfl h
  | [c] =>
    intro _ hall
    rw [phonemesGo]
    exact charPhonemes_ne_nil c (hall c (by simp))
  | c :: d :: rest =>
    intro _ hall
    rw [phonemesGo]
    split_ifs
    · simp
    · simp
    · simp
    · simp
    · intro heq
      obtain ⟨h1, _⟩ := List.append_eq_nil.mp heq
      exact charPhonemes_ne_nil c (hall c (by simp)) h1

lemma wordToPhonemes_ne_nil (w : String) (h : cleanLetters w ≠ []) :
    wordToPhonemes w ≠ [] := by
  rw [wordToPhonemes]
  refine phonemesGo_ne_nil _ h ?_
  intro c hc
  exact (List.mem_filter.mp hc).2

lemma convertWordsToVisemes_ne_nil (wts : List WordTiming) (wt : WordTiming)
    (hmem : wt ∈ wts) (h : cleanLetters wt.word ≠ []) :
    convertWordsToVisemes wts ≠ [] := by
  intro heq
  rw [convertWordsToVisemes] at heq
  have hwt := List.flatMap_eq_nil_iff.mp heq wt hmem
  simp only [List.map_eq_nil_iff, List.enum_eq_nil] at hwt
  exact wordToPhonemes_ne_nil wt.word h hwt

end PhonemeConverter

/-- A three-word utterance with no alphabetic characters produces an empty
viseme timeline through the word-duration split fallback. -/
theorem claim9_counterexample :
    PhonemeConverter.generateVisemeTimeline "1 2 3" 3000 = [] ∧
    (PhonemeConverter.splitWords "1 2 3").length = 3 :=
  ⟨rfl, by decide⟩

/-- C9 (amended): a three-word utterance of total duration `3000` ms gets the
word slices `[0,1000]`, `[1000,2000]`, `[2000,3000]` — exactly `1000` ms per
word — and the resulting timeline is non-empty provided at least one word
contains an alphabetic character (a timeline of letter-free words is empty). -/
theorem claim9_theorem (text w0 w1 w2 : String)
    (hw : PhonemeConverter.splitWords text = [w0, w1, w2])
    (hl : PhonemeConverter.cleanLetters w0 ≠ [] ∨
      PhonemeConverter.cleanLetters w1 ≠ [] ∨
      PhonemeConverter.cleanLetters w2 ≠ []) :
    PhonemeConverter.mkWordTimings text 3000 =
      [⟨w0, 0, 1000⟩, ⟨w1, 1000, 2000⟩, ⟨w2, 2000, 3000⟩] ∧
    PhonemeConverter.generateVisemeTimeline text 3000 ≠ [] := by
  have henum : [w0, w1, w2].enum = [(0, w0), (1, w1), (2, w2)] := rfl
  have hmk : PhonemeConverter.mkWordTimings text 3000 =
      [⟨w0, 0, 1000⟩, ⟨w1, 1000, 2000⟩, ⟨w2, 2000, 3000⟩] := by
    rw [PhonemeConverter.mkWordTimings, hw]
    simp only [henum, List.map, List.length_cons, List.length_nil,
      PhonemeConverter.WordTiming.mk.injEq, List.cons.injEq, and_true]
    norm_num
  refine ⟨hmk, ?_⟩
  rw [PhonemeConverter.generateVisemeTimeline, hmk]
  rcases hl with h | h | h
  · exact PhonemeConverter.convertWordsToVisemes_ne_nil _ ⟨w0, 0, 1000⟩ (by simp) h
  · exact PhonemeConverter.convertWordsToVisemes_ne_nil _ ⟨w1, 1000, 2000⟩ (by simp) h
  · exact PhonemeConverter.convertWordsToVisemes_ne_nil _ ⟨w2, 2000, 3000⟩ (by simp) h

/-- Witness for C9 at the utterance `"hi yo ma"` of duration `3000` ms. -/
theorem claim9_witness :
    PhonemeConverter.mkWordTimings "hi yo ma" 3000 =
      [⟨"hi", 0, 1000⟩, ⟨"yo", 1000, 2000⟩, ⟨"ma", 2000, 3000⟩] ∧
    PhonemeConverter.generateVisemeTimeline "hi yo ma" 3000 ≠ [] :=
  claim9_theorem "hi yo ma" "hi" "yo" "ma" (by decide) (Or.inl (by decide))

namespace AlignerGrouping

lemma groupGo_chars_ne_nil :
    ∀ (input : List CharTiming) (cur : List String) (gs ge : Int),
      ∀ g ∈ groupGo input cur gs ge, g.chars ≠ [] := by
  intro input
  induction input with
  | nil =>
    intro cur gs ge g hg
    rw [groupGo] at hg
    split at hg
    · exact absurd hg (by simp)
    · next hne =>
      rw [List.mem_singleton] at hg
      subst hg
      exact hne
  | cons e rest ih =>
    intro cur gs ge g hg
    rw [groupGo] at hg
    split at hg
    · split at hg
      · exact ih [] _ _ g hg
      · next hne =>
        rcases List.mem_cons.mp hg with rfl | hg'
        · exact hne
        · exact ih [] _ _ g hg'
    · simp only at hg
      split at hg
      · rcases List.mem_cons.mp hg with rfl | hg'
        · simp
        · exact ih [] _ _ g hg'
      · exact ih (cur ++ [e.char]) _ _ g hg

lemma smoothGo_pred (P : Nat → Prop) :
    ∀ (rest acc : List VisemeTimestamp),
      (∀ a ∈ acc, P a.viseme) → (∀ c ∈ rest, P c.viseme) →
      ∀ e ∈ smoothGo acc rest, P e.viseme := by
  intro rest
  induction rest with
  | nil =>
    intro acc hacc _ e he
    rw [smoothGo] at he
    exact hacc e (List.mem_reverse.mp he)
  | cons cur rest ih =>
    intro acc hacc hrest e he
    have hcur : P cur.viseme := hrest cur (by simp)
    have hrest' : ∀ c ∈ rest, P c.viseme := fun c hc => hrest c (by simp [hc])
    match acc with
    | [] =>
      rw [smoothGo] at he
      exact ih [cur] (by simpa using hcur) hrest' e he
    | prev :: accTail =>
      have hprev : P prev.viseme := hacc prev (by simp)
      have htail : ∀ a ∈ accTail, P a.viseme := fun a ha => hacc a (by simp [ha])
      rw [smoothGo] at he
      split at he
      · refine ih _ ?_ hrest' e he
        intro a ha
        rcases List.mem_cons.mp ha with rfl | ha'
        · exact hprev
        · exact htail a ha'
      · split at he
        · refine ih _ ?_ hrest' e he
          intro a ha
          rcases List.mem_cons.mp ha with rfl | ha'
          · exact hprev
          · exact htail a ha'
        · refine ih _ ?_ hrest' e he
          intro a ha
          rcases List.mem_cons.mp ha with rfl | ha'
          · exact hcur
          · rcases List.mem_cons.mp ha' with rfl | ha''
            · exact hprev
            · exact htail a ha''

lemma smooth_pred (P : Nat → Prop) (vs : List VisemeTimestamp)
    (h : ∀ c ∈ vs, P c.viseme) :
    ∀ e ∈ smoothVisemeSequence vs, P e.viseme := by
  rw [smoothVisemeSequence]
  split
  · exact h
  · exact smoothGo_pred P vs [] (by simp) h

end AlignerGrouping

/-- C10 (confirmed): every viseme event produced by the grouping conversion
carries a non-neutral code between `1` and `9` — every emitted group is
non-empty and the `|| 1` fallback keeps every per-character code non-zero, so
the dominant-code selection never returns neutral. -/
theorem claim10_theorem (al : List AlignerGrouping.CharTiming)
    (ev : AlignerGrouping.VisemeTimestamp)
    (hev : ev ∈ AlignerGrouping.convertAlignmentToVisemes al) :
    1 ≤ ev.viseme ∧ ev.viseme ≤ 9 := by
  rw [AlignerGrouping.convertAlignmentToVisemes] at hev
  refine AlignerGrouping.smooth_pred (fun v => 1 ≤ v ∧ v ≤ 9) _ ?_ ev hev
  intro c hc
  obtain ⟨g, hg, rfl⟩ := List.mem_map.mp hc
  exact getDominantViseme_bounds g.chars
    (AlignerGrouping.groupGo_chars_ne_nil al [] 0 0 g hg)

/-- Witness for C10 at the single-entry alignment `a : [0, 200]`. -/
theorem claim10_witness :
    1 ≤ (AlignerGrouping.VisemeTimestamp.mk 1 0 200 "a").viseme ∧
      (AlignerGrouping.VisemeTimestamp.mk 1 0 200 "a").viseme ≤ 9 :=
  claim10_theorem [⟨"a", 0, 200⟩] ⟨1, 0, 200, "a"⟩ (by decide)
